import Mathlib

/-!
Verification of the file-selection engine of `wpr` (src/wpr.js).

JavaScript strings are embedded as lists of characters (`JStr`); the
directory tree walked by `getAllFiles` is embedded as a mutual inductive
(`FSEntry` for one entry, `FSList` for the entry sequence returned by
`readdir`).  `path.join` is modelled by `joinPath` and, for the descendant
paths that actually occur in the program, `path.relative` is modelled by
`pathRelative`.  Interactive collaborators (inquirer, fuse.js) are
parameters: the fuzzy-search collaborator is an abstract function
`search : JStr → List JStr`.
-/

namespace Wpr

/-- Characters of a JavaScript string, in order. -/
abbrev JStr := List Char

/-- Model of `path.join(a, b)` for the relative/absolute segments the
program builds: empty sides are absorbed, otherwise a `'/'` separator is
inserted. -/
def joinPath (a b : JStr) : JStr :=
  if a = [] then b else if b = [] then a else a ++ '/' :: b

/-- Model of `path.relative(root, p)` restricted to the case the program
exercises, namely `p = joinPath root r` for some `r`: strip `root` and the
separator.  For an empty `root` it is the identity. -/
def pathRelative (root p : JStr) : JStr :=
  if root = [] then p else p.drop (root.length + 1)

/-- Model of JavaScript `hay.includes(needle)` (substring test),
from `relPath.includes(b)` at src/wpr.js line 167. -/
def jsIncludes (hay needle : JStr) : Bool :=
  match hay with
  | [] => needle.isEmpty
  | _ :: t => needle.isPrefixOf hay || jsIncludes t needle

/-- The two string lists carried by `wpr.conf` (src/wpr.js `loadConfig`). -/
structure Config where
  whitelist : List JStr
  blacklist : List JStr

mutual

/-- One `readdir` entry (`withFileTypes`): a plain file or a directory
with its own entry sequence. -/
inductive FSEntry : Type where
  | file : JStr → FSEntry
  | dir : JStr → FSList → FSEntry

/-- The entry sequence of one directory, in the filesystem's native
enumeration order. -/
inductive FSList : Type where
  | nil : FSList
  | cons : FSEntry → FSList → FSList

end

/-- `entry.name`. -/
def FSEntry.name : FSEntry → JStr
  | .file n => n
  | .dir n _ => n

/-- `entry.isDirectory()`. -/
def FSEntry.isDir : FSEntry → Bool
  | .file _ => false
  | .dir _ _ => true

mutual

/-- Embeds the per-entry body of the `for` loop of `getAllFiles`
(src/wpr.js lines 162-184).  `relDir` is the relative path of the
directory being scanned (so `relPath = path.relative(relativeBase,
path.join(dirPath, entry.name)) = joinPath relDir entry.name`, since
`dirPath = joinPath root relDir` and `relativeBase` stays the original
root).  Blacklisted entries are skipped; when the whitelist is non-empty a
non-matching non-directory is skipped; a surviving directory is recursed
into and a surviving file contributes its full path. -/
def getAllFilesEntry (root : JStr) (cfg : Config) (relDir : JStr) (e : FSEntry) : List JStr :=
  let relPath := joinPath relDir e.name
  if cfg.blacklist.any (fun b => jsIncludes relPath b) then
    []
  else if decide (0 < cfg.whitelist.length)
      && !(cfg.whitelist.any (fun w => w.isPrefixOf relPath))
      && !e.isDir then
    []
  else
    match e with
    | .file _ => [joinPath root relPath]
    | .dir _ sub => getAllFiles root cfg relPath sub

/-- Embeds `getAllFiles(dirPath, config, relativeBase)` (src/wpr.js lines
158-187) as a fold of `getAllFilesEntry` over the entry sequence, splicing
each entry's contribution in enumeration order. -/
def getAllFiles (root : JStr) (cfg : Config) (relDir : JStr) : FSList → List JStr
  | .nil => []
  | .cons e rest => getAllFilesEntry root cfg relDir e ++ getAllFiles root cfg relDir rest

end

mutual

/-- Reference enumeration: the relative paths of all files below one
entry, depth-first, with no filtering. -/
def allFilePathsEntry (relDir : JStr) : FSEntry → List JStr
  | .file n => [joinPath relDir n]
  | .dir n sub => allFilePaths (joinPath relDir n) sub

/-- Reference enumeration: the relative paths of all files below an entry
sequence, depth-first in enumeration order, with no filtering. -/
def allFilePaths (relDir : JStr) : FSList → List JStr
  | .nil => []
  | .cons e rest => allFilePathsEntry relDir e ++ allFilePaths relDir rest

end

/-- Eligibility of a relative path under the configuration rules: no
blacklist entry occurs as a substring, and (when the whitelist is
non-empty) some whitelist entry is a prefix. -/
def eligible (cfg : Config) (p : JStr) : Bool :=
  !(cfg.blacklist.any (fun b => jsIncludes p b))
    && (cfg.whitelist.isEmpty || cfg.whitelist.any (fun w => w.isPrefixOf p))

/-- The candidate set of one run: `getAllFiles(process.cwd(), config)`
mapped through `path.relative(process.cwd(), ·)`, exactly as `main` does
when building the fuse index and the displayed list (src/wpr.js lines
223 and 243). -/
def relCandidates (root : JStr) (cfg : Config) (tree : FSList) : List JStr :=
  (getAllFiles root cfg [] tree).map (pathRelative root)

/-- The substring test `jsIncludes` agrees with `List.IsInfix`. -/
theorem jsIncludes_iff_isInfix (hay needle : JStr) :
    jsIncludes hay needle = true ↔ needle <:+: hay := by
  induction hay with
  | nil =>
    simp [jsIncludes, List.isEmpty_iff]
  | cons c t ih =>
    simp [jsIncludes, ih]
    constructor
    · rintro (h | h)
      · exact h.isInfix
      · exact h.trans (List.infix_cons (List.infix_refl t))
    · rintro ⟨s, u, h⟩
      rcases s with _ | ⟨a, s⟩
      · left; exact ⟨u, by simpa using h⟩
      · right
        refine ⟨s, u, ?_⟩
        simpa using congrArg List.tail h
/-- A substring of a path is still a substring after the path is extended
by further segments. -/
theorem jsIncludes_joinPath (r s b : JStr) (h : jsIncludes r b = true) :
    jsIncludes (joinPath r s) b = true := by
  rw [jsIncludes_iff_isInfix] at h ⊢
  unfold joinPath
  split
  · rename_i hr
    subst hr
    have : b = [] := List.eq_nil_of_infix_nil h
    subst this
    exact List.nil_infix
  · split
    · exact h
    · exact h.trans ⟨[], '/' :: s, rfl⟩

/-- `joinPath` is associative. -/
theorem joinPath_assoc (a b c : JStr) :
    joinPath (joinPath a b) c = joinPath a (joinPath b c) := by
  by_cases ha : a = [] <;> by_cases hb : b = [] <;> by_cases hc : c = [] <;>
    simp [joinPath, ha, hb, hc]

/-- Stripping the root from a root-joined path recovers the relative part:
`path.relative(root, path.join(root, r)) = r`. -/
theorem pathRelative_joinPath (root r : JStr) :
    pathRelative root (joinPath root r) = r := by
  by_cases hr : root = []
  · subst hr; simp [pathRelative, joinPath]
  · by_cases hb : r = []
    · subst hb
      simp [pathRelative, joinPath, hr]
    · simp [pathRelative, joinPath, hr, hb]

mutual

/-- Every relative path below an entry extends the entry's directory
prefix. -/
theorem mem_allFilePathsEntry_joinPath :
    ∀ (relDir : JStr) (e : FSEntry) (p : JStr),
      p ∈ allFilePathsEntry relDir e → ∃ s, p = joinPath relDir s
  | relDir, .file n, p, h => by
    simp [allFilePathsEntry] at h
    exact ⟨n, h⟩
  | relDir, .dir n sub, p, h => by
    simp only [allFilePathsEntry] at h
    obtain ⟨s, hs⟩ := mem_allFilePaths_joinPath (joinPath relDir n) sub p h
    exact ⟨joinPath n s, by rw [hs, joinPath_assoc]⟩

/-- Every relative path below an entry sequence extends the sequence's
directory prefix. -/
theorem mem_allFilePaths_joinPath :
    ∀ (relDir : JStr) (es : FSList) (p : JStr),
      p ∈ allFilePaths relDir es → ∃ s, p = joinPath relDir s
  | _, .nil, _, h => by simp [allFilePaths] at h
  | relDir, .cons e rest, p, h => by
    simp only [allFilePaths, List.mem_append] at h
    rcases h with h | h
    · exact mem_allFilePathsEntry_joinPath relDir e p h
    · exact mem_allFilePaths_joinPath relDir rest p h

end

mutual

/-- The entry-level walk keeps exactly the `eligible` file paths below the
entry, in depth-first order, each joined onto the root. -/
theorem getAllFilesEntry_eq :
    ∀ (root : JStr) (cfg : Config) (relDir : JStr) (e : FSEntry),
      getAllFilesEntry root cfg relDir e
        = ((allFilePathsEntry relDir e).filter (eligible cfg)).map (joinPath root)
  | root, cfg, relDir, .file n => by
    simp only [getAllFilesEntry, allFilePathsEntry, FSEntry.name, FSEntry.isDir]
    by_cases hbl : cfg.blacklist.any (fun b => jsIncludes (joinPath relDir n) b) = true
    · simp [hbl, eligible]
    · by_cases hwl : cfg.whitelist = []
      · simp [hbl, hwl, eligible]
      · by_cases hpre : cfg.whitelist.any (fun w => w.isPrefixOf (joinPath relDir n)) = true
        · simp [hbl, hwl, hpre, eligible, List.isEmpty_iff, List.length_pos]
        · simp [hbl, hwl, hpre, eligible, List.isEmpty_iff, List.length_pos]
  | root, cfg, relDir, .dir n sub => by
    simp only [getAllFilesEntry, allFilePathsEntry, FSEntry.name, FSEntry.isDir]
    by_cases hbl : cfg.blacklist.any (fun b => jsIncludes (joinPath relDir n) b) = true
    · have hnil : (allFilePaths (joinPath relDir n) sub).filter (eligible cfg) = [] := by
        rw [List.filter_eq_nil_iff]
        intro p hp
        obtain ⟨s, rfl⟩ := mem_allFilePaths_joinPath _ _ _ hp
        obtain ⟨b, hbmem, hbi⟩ := List.any_eq_true.mp hbl
        have hall : cfg.blacklist.any
            (fun bb => jsIncludes (joinPath (joinPath relDir n) s) bb) = true :=
          List.any_eq_true.mpr ⟨b, hbmem, jsIncludes_joinPath _ s b hbi⟩
        simp [eligible, hall]
      simp [hbl, hnil]
    · simp only [hbl, if_false, Bool.false_eq_true]
      simpa using getAllFiles_eq root cfg (joinPath relDir n) sub

/-- The directory walk of `getAllFiles` keeps exactly the `eligible` file
paths, in depth-first enumeration order, each joined onto the root. -/
theorem getAllFiles_eq :
    ∀ (root : JStr) (cfg : Config) (relDir : JStr) (es : FSList),
      getAllFiles root cfg relDir es
        = ((allFilePaths relDir es).filter (eligible cfg)).map (joinPath root)
  | root, cfg, relDir, .nil => by simp [getAllFiles, allFilePaths]
  | root, cfg, relDir, .cons e rest => by
    simp only [getAllFiles, allFilePaths, List.filter_append, List.map_append]
    rw [getAllFilesEntry_eq root cfg relDir e, getAllFiles_eq root cfg relDir rest]

end

/-- The candidate set of relative paths produced by one scan is the
depth-first enumeration of the tree filtered by `eligible`. -/
theorem relCandidates_eq (root : JStr) (cfg : Config) (tree : FSList) :
    relCandidates root cfg tree = (allFilePaths [] tree).filter (eligible cfg) := by
  unfold relCandidates
  rw [getAllFiles_eq, List.map_map]
  exact List.map_id'' (fun x => pathRelative_joinPath root x) _

/-- Sample configuration for the witnesses: whitelist `["src"]`,
blacklist `["git"]`. -/
def cfgSample : Config := ⟨["src".toList], ["git".toList]⟩

/-- Sample tree for the witnesses:
`src/git.js`, `src/app.js`, `lib/app.js`. -/
def treeSample : FSList :=
  .cons (.dir "src".toList (.cons (.file "git.js".toList) (.cons (.file "app.js".toList) .nil)))
    (.cons (.dir "lib".toList (.cons (.file "app.js".toList) .nil)) .nil)

/-- Claim C1: for every configuration and relative path, if some
blacklist entry is a substring of the path then the path is not in the
candidate set, regardless of any whitelist prefix match: the blacklist
test of `getAllFiles` runs first and always wins. -/
theorem blacklist_precedence (root : JStr) (cfg : Config) (tree : FSList) (p : JStr)
    (h : ∃ b ∈ cfg.blacklist, jsIncludes p b = true) :
    p ∉ relCandidates root cfg tree := by
  rw [relCandidates_eq]
  intro hmem
  have hel := (List.mem_filter.mp hmem).2
  obtain ⟨b, hbmem, hbi⟩ := h
  have : cfg.blacklist.any (fun b => jsIncludes p b) = true :=
    List.any_eq_true.mpr ⟨b, hbmem, hbi⟩
  simp [eligible, this] at hel

/-- Claim C1 witness: with blacklist `["git"]` and whitelist `["src"]`,
the path `src/git.js` matches a whitelist prefix and a blacklist
substring, and is excluded. -/
theorem blacklist_precedence_witness :
    (∃ b ∈ cfgSample.blacklist, jsIncludes "src/git.js".toList b = true)
    ∧ "src/git.js".toList ∉ relCandidates "/proj".toList cfgSample treeSample :=
  ⟨by decide, blacklist_precedence "/proj".toList cfgSample treeSample "src/git.js".toList
    (by decide)⟩

/-- Claim C2: for a path no blacklist entry matches, membership in the
candidate set is equivalent to being a file of the tree whose relative
path starts with a whitelist entry when the whitelist is non-empty — the
characterization does not depend on whether the enclosing directories
match the whitelist, i.e. non-blacklisted directories are always
traversed — and with an empty whitelist every such file is included. -/
theorem whitelist_prefix_semantics (root : JStr) (cfg : Config) (tree : FSList) (p : JStr)
    (hb : ∀ b ∈ cfg.blacklist, jsIncludes p b = false) :
    p ∈ relCandidates root cfg tree
      ↔ (p ∈ allFilePaths [] tree
          ∧ (cfg.whitelist = [] ∨ ∃ w ∈ cfg.whitelist, w.isPrefixOf p = true)) := by
  rw [relCandidates_eq, List.mem_filter]
  have hbl : cfg.blacklist.any (fun b => jsIncludes p b) = false := by
    rw [List.any_eq_false]
    intro b hbmem
    simp [hb b hbmem]
  simp [eligible, hbl, List.isEmpty_iff, List.any_eq_true]

/-- Claim C2 witness: with whitelist `["src"]` and blacklist `["git"]`,
`src/app.js` is admitted (even though only reachable through directory
recursion) and `lib/app.js` is rejected. -/
theorem whitelist_prefix_semantics_witness :
    (∀ b ∈ cfgSample.blacklist, jsIncludes "src/app.js".toList b = false)
    ∧ "src/app.js".toList ∈ relCandidates "/proj".toList cfgSample treeSample
    ∧ "lib/app.js".toList ∉ relCandidates "/proj".toList cfgSample treeSample :=
  ⟨by decide,
   (whitelist_prefix_semantics "/proj".toList cfgSample treeSample "src/app.js".toList
      (by decide)).mpr (by decide),
   fun hmem => absurd
     ((whitelist_prefix_semantics "/proj".toList cfgSample treeSample "lib/app.js".toList
        (by decide)).mp hmem)
     (by decide)⟩

/-- Claim C3: the candidate set delivered by the scan is the depth-first
enumeration of the tree (subtree results spliced in place of their
directory entry, never re-sorted) restricted to eligible paths, each
relative to the scan root; the raw `getAllFiles` return is the same list
with each path joined onto the root. -/
theorem scan_depth_first_order (root : JStr) (cfg : Config) (tree : FSList) :
    relCandidates root cfg tree = (allFilePaths [] tree).filter (eligible cfg)
    ∧ getAllFiles root cfg [] tree
        = ((allFilePaths [] tree).filter (eligible cfg)).map (joinPath root) :=
  ⟨relCandidates_eq root cfg tree, getAllFiles_eq root cfg [] tree⟩

/-- The sentinel list entry `'Done'` offered by the autocomplete source
(src/wpr.js line 243). -/
def doneStr : JStr := "Done".toList

/-- Model of JavaScript `input.trim()` over the whitespace characters of
the embedding: drop whitespace from both ends. -/
def jsTrim (s : JStr) : JStr :=
  ((s.dropWhile Char.isWhitespace).reverse.dropWhile Char.isWhitespace).reverse

/-- Embeds the autocomplete `source` callback (src/wpr.js lines 239-249):
if the input trims to the empty string the list offered is `'Done'`
followed by the candidate set, otherwise it is the fuzzy-search result.
The fuzzy search over the fuse.js index is the abstract parameter
`search`. -/
def autocompleteSource (search : JStr → List JStr) (cands : List JStr) (input : JStr) :
    List JStr :=
  if jsTrim input = [] then doneStr :: cands else search input

/-- Embeds the selection `while` loop (src/wpr.js lines 233-261).  Each
trace element is one iteration: the query typed and the item chosen.
Choosing `'Done'` sets `addingFiles = false` and the loop exits with the
selection unchanged; otherwise a truthy (non-empty) item not already
selected is appended. -/
def runSession : List (JStr × JStr) → List JStr → List JStr
  | [], sel => sel
  | (_, c) :: rest, sel =>
    if c = doneStr then sel
    else runSession rest (if c ≠ [] ∧ c ∉ sel then sel ++ [c] else sel)

/-- `trim` produces the empty string exactly when every character is
whitespace. -/
theorem jsTrim_eq_nil_iff (s : JStr) :
    jsTrim s = [] ↔ ∀ c ∈ s, c.isWhitespace = true := by
  unfold jsTrim
  rw [List.reverse_eq_nil_iff, List.dropWhile_eq_nil_iff]
  constructor
  · intro h c hc
    by_cases hmem : c ∈ s.dropWhile Char.isWhitespace
    · exact h c (List.mem_reverse.mpr hmem)
    · have hc2 : c ∈ s.takeWhile Char.isWhitespace ++ s.dropWhile Char.isWhitespace := by
        rw [List.takeWhile_append_dropWhile]
        exact hc
      rcases List.mem_append.mp hc2 with h1 | h1
      · exact List.mem_takeWhile_imp h1
      · exact absurd h1 hmem
  · intro h c hc
    exact h c ((List.dropWhile_sublist _).subset (List.mem_reverse.mp hc))

/-- Invariant preservation for the selection loop: starting from a
duplicate-free selection drawn from the candidate set, and choosing only
items offered by the autocomplete source for some query, the selection
stays duplicate-free and inside the candidate set. -/
theorem runSession_inv (search : JStr → List JStr) (cands : List JStr)
    (hsub : ∀ q x, x ∈ search q → x ∈ cands) :
    ∀ (trace : List (JStr × JStr)) (sel : List JStr),
      (∀ qc ∈ trace, qc.2 ∈ autocompleteSource search cands qc.1) →
      sel.Nodup → (∀ p ∈ sel, p ∈ cands) →
      (runSession trace sel).Nodup ∧ ∀ p ∈ runSession trace sel, p ∈ cands := by
  intro trace
  induction trace with
  | nil => intro sel _ h1 h2; exact ⟨h1, h2⟩
  | cons qc rest ih =>
    obtain ⟨q, c⟩ := qc
    intro sel htr h1 h2
    simp only [runSession]
    by_cases hdone : c = doneStr
    · rw [if_pos hdone]
      exact ⟨h1, h2⟩
    · rw [if_neg hdone]
      have htr2 : ∀ qc ∈ rest, qc.2 ∈ autocompleteSource search cands qc.1 :=
        fun x hx => htr x (List.mem_cons_of_mem _ hx)
      by_cases hadd : c ≠ [] ∧ c ∉ sel
      · rw [if_pos hadd]
        have hc : c ∈ cands := by
          have hmem := htr (q, c) (List.mem_cons_self _ _)
          unfold autocompleteSource at hmem
          split at hmem
          · rcases List.mem_cons.mp hmem with h | h
            · exact absurd h hdone
            · exact h
          · exact hsub q c hmem
        apply ih
        · exact htr2
        · rw [← List.concat_eq_append]
          exact List.Nodup.concat hadd.2 h1
        · intro p hp
          rcases List.mem_append.mp hp with hp | hp
          · exact h2 p hp
          · rw [List.mem_singleton.mp hp]
            exact hc
      · rw [if_neg hadd]
        exact ih sel htr2 h1 h2

/-- Claim C4 counterexample: for the non-empty, whitespace-only query
`' '` the list offered is `'Done'` followed by the candidate set, not the
fuzzy-search result for that query (fuse.js returns no match for it,
modelled by a search collaborator returning the empty result). -/
theorem query_dispatch_cex :
    " ".toList ≠ ([] : JStr)
    ∧ autocompleteSource (fun _ => []) ["a.txt".toList] " ".toList
        = doneStr :: ["a.txt".toList]
    ∧ autocompleteSource (fun _ => []) ["a.txt".toList] " ".toList
        ≠ (fun _ => ([] : List JStr)) " ".toList := by
  refine ⟨by decide, by decide, by decide⟩

/-- Claim C4 as amended: the list presented in each `Selecting` iteration
is `'Done'` followed by the candidate set in candidate-set order whenever
the query trims to the empty string — in particular for the empty query
and for whitespace-only queries — and is the fuzzy-search result, with no
`'Done'` entry added, whenever the query contains a non-whitespace
character. -/
theorem query_dispatch_trimmed (search : JStr → List JStr) (cands : List JStr)
    (input : JStr) :
    (input = [] → autocompleteSource search cands input = doneStr :: cands)
    ∧ ((∀ c ∈ input, c.isWhitespace = true) →
        autocompleteSource search cands input = doneStr :: cands)
    ∧ ((∃ c ∈ input, ¬ c.isWhitespace = true) →
        autocompleteSource search cands input = search input) := by
  unfold autocompleteSource
  refine ⟨?_, ?_, ?_⟩
  · intro h
    subst h
    rw [if_pos (by simp [jsTrim])]
  · intro h
    rw [if_pos ((jsTrim_eq_nil_iff input).mpr h)]
  · intro h
    rw [if_neg]
    intro hnil
    obtain ⟨c, hc, hw⟩ := h
    exact hw ((jsTrim_eq_nil_iff input).mp hnil c hc)

/-- Claim C4 witness: the empty query and a whitespace query are offered
`'Done'` plus the candidates; the query `'ap'` is offered exactly the
fuzzy-search result. -/
theorem query_dispatch_trimmed_witness :
    autocompleteSource (fun _ => ["a.txt".toList]) ["a.txt".toList] [] =
        doneStr :: ["a.txt".toList]
    ∧ autocompleteSource (fun _ => ["a.txt".toList]) ["a.txt".toList] "ap".toList
        = (fun _ => ["a.txt".toList]) "ap".toList :=
  ⟨(query_dispatch_trimmed (fun _ => ["a.txt".toList]) ["a.txt".toList] []).1 rfl,
   (query_dispatch_trimmed (fun _ => ["a.txt".toList]) ["a.txt".toList] "ap".toList).2.2
     (by decide)⟩

/-- Claim C5: when every chosen item belongs to the list offered for its
query, and the fuzzy search only returns candidates, then after any
sequence of selection-loop iterations the selection has no duplicates and
contains only members of the candidate set. -/
theorem selection_invariant (search : JStr → List JStr) (cands : List JStr)
    (trace : List (JStr × JStr))
    (hsub : ∀ q x, x ∈ search q → x ∈ cands)
    (htr : ∀ qc ∈ trace, qc.2 ∈ autocompleteSource search cands qc.1) :
    (runSession trace []).Nodup ∧ ∀ p ∈ runSession trace [], p ∈ cands :=
  runSession_inv search cands hsub trace [] htr List.nodup_nil (by simp)

/-- Claim C5 witness: a concrete two-candidate session whose chooser picks
offered items only. -/
theorem selection_invariant_witness :
    (runSession [([], "src/app.js".toList), ("app".toList, "lib/app.js".toList),
        ([], "src/app.js".toList)] []).Nodup
    ∧ ∀ p ∈ runSession [([], "src/app.js".toList), ("app".toList, "lib/app.js".toList),
        ([], "src/app.js".toList)] [],
        p ∈ ["src/app.js".toList, "lib/app.js".toList] :=
  selection_invariant
    (fun q => ["src/app.js".toList, "lib/app.js".toList].filter (fun p => jsIncludes p q))
    ["src/app.js".toList, "lib/app.js".toList]
    [([], "src/app.js".toList), ("app".toList, "lib/app.js".toList),
      ([], "src/app.js".toList)]
    (fun _ x hx => (List.mem_filter.mp hx).1)
    (by decide)

/-- Claim C6: choosing an item that is already in the selection leaves the
selection unchanged after that iteration — the same list, hence the same
length and order (a `'Done'` choice ends the loop with the selection
unchanged, any other already-present choice is a no-op). -/
theorem selection_idempotent (q c : JStr) (sel : List JStr) (h : c ∈ sel) :
    runSession [(q, c)] sel = sel := by
  simp only [runSession]
  by_cases hdone : c = doneStr
  · rw [if_pos hdone]
  · rw [if_neg hdone, if_neg (by simp [h])]

/-- Claim C6 witness: re-selecting `a.txt` when it is already selected
changes nothing. -/
theorem selection_idempotent_witness :
    runSession [("a".toList, "a.txt".toList)] ["a.txt".toList, "b.txt".toList]
      = ["a.txt".toList, "b.txt".toList] :=
  selection_idempotent "a".toList "a.txt".toList ["a.txt".toList, "b.txt".toList]
    (by decide)

/-- `'Done'` is never appended by the selection loop. -/
theorem done_not_mem_runSession :
    ∀ (trace : List (JStr × JStr)) (sel : List JStr),
      doneStr ∉ sel → doneStr ∉ runSession trace sel := by
  intro trace
  induction trace with
  | nil => intro sel h; exact h
  | cons qc rest ih =>
    obtain ⟨q, c⟩ := qc
    intro sel h
    simp only [runSession]
    by_cases hdone : c = doneStr
    · rw [if_pos hdone]; exact h
    · rw [if_neg hdone]
      apply ih
      by_cases hadd : c ≠ [] ∧ c ∉ sel
      · rw [if_pos hadd]
        intro hmem
        rcases List.mem_append.mp hmem with hmem | hmem
        · exact h hmem
        · exact hdone (List.mem_singleton.mp hmem).symm
      · rw [if_neg hadd]; exact h

/-- Claim C10: the sentinel path `'Done'` can never end up in the
selection — a session that starts empty never contains it — and choosing
`'Done'` in any iteration ends the session immediately with the selection
unchanged instead of appending the item. -/
theorem done_never_selected :
    (∀ trace : List (JStr × JStr), doneStr ∉ runSession trace [])
    ∧ (∀ (q : JStr) (rest : List (JStr × JStr)) (sel : List JStr),
        runSession ((q, doneStr) :: rest) sel = sel) :=
  ⟨fun trace => done_not_mem_runSession trace [] (by simp),
   fun q rest sel => by simp [runSession]⟩

/-- The character class `[a-z0-9]` of the sanitizing regex in
`generateFilenameFromPrompt`. -/
def isLowerAlnum (c : Char) : Bool :=
  ('a' ≤ c && c ≤ 'z') || ('0' ≤ c && c ≤ '9')

/-- Embeds `replace(/[^a-z0-9]+/g, '-')`: scan the string, copying
`[a-z0-9]` characters and emitting a single `'-'` at the start of every
maximal run of other characters (`inRun` remembers being inside such a
run). -/
def collapseAux (inRun : Bool) : JStr → JStr
  | [] => []
  | c :: rest =>
    if isLowerAlnum c then c :: collapseAux false rest
    else if inRun then collapseAux true rest
    else '-' :: collapseAux true rest

/-- `replace(/[^a-z0-9]+/g, '-')` on a whole string. -/
def collapseRuns (s : JStr) : JStr := collapseAux false s

/-- Embeds `replace(/^-+|-+$/g, '')`: remove the leading run and the
trailing run of `'-'`. -/
def trimDashes (s : JStr) : JStr :=
  ((s.dropWhile (fun c => c == '-')).reverse.dropWhile (fun c => c == '-')).reverse

/-- The sanitized base of `generateFilenameFromPrompt` (src/wpr.js line
195): lowercase, collapse non-alphanumeric runs to `'-'`, strip outer
dashes.  JavaScript `toLowerCase` is modelled by `Char.toLower`; beyond
ASCII the two can differ, but any such character is replaced by `'-'`
either way. -/
def sanitizedBase (p : JStr) : JStr :=
  trimDashes (collapseRuns (p.map Char.toLower))

/-- Embeds `generateFilenameFromPrompt` (src/wpr.js lines 194-198):
sanitize, `slice(0, 50)` when longer than 50, fall back to `'prompt'`
when empty. -/
def generateFilenameFromPrompt (p : JStr) : JStr :=
  let base := sanitizedBase p
  let filename := if 50 < base.length then base.take 50 else base
  if filename = [] then "prompt".toList else filename

/-- Modelled from the spec's words for `deriveFilename`, for comparison
with the source function: map each non-alphanumeric character to `'-'`,
squeeze consecutive dashes, strip leading and trailing dashes, truncate
to at most 50 characters, fall back to `'prompt'` when empty. -/
def dashify (c : Char) : Char := if isLowerAlnum c then c else '-'

/-- Squeeze every run of `'-'` down to a single `'-'` (spec-side
formulation of run replacement). -/
def squeezeAux (inRun : Bool) : JStr → JStr
  | [] => []
  | c :: rest =>
    if c == '-' then
      if inRun then squeezeAux true rest else '-' :: squeezeAux true rest
    else c :: squeezeAux false rest

/-- Modelled from the spec: `deriveFilename` as the spec states it. -/
def specDeriveFilename (p : JStr) : JStr :=
  let base := trimDashes (squeezeAux false ((p.map Char.toLower).map dashify))
  let t := base.take 50
  if t = [] then "prompt".toList else t

/-- An `[a-z0-9]` character is not a dash. -/
theorem isLowerAlnum_ne_dash (c : Char) (h : isLowerAlnum c = true) :
    (c == '-') = false := by
  cases hbe : (c == '-') with
  | false => rfl
  | true =>
    have hc : c = '-' := by simpa using hbe
    subst hc
    exact absurd h (by decide)

/-- Collapsing non-alphanumeric runs directly equals mapping every
non-alphanumeric character to `'-'` and then squeezing dash runs. -/
theorem collapseAux_eq_squeezeAux (l : JStr) :
    ∀ b, collapseAux b l = squeezeAux b (l.map dashify) := by
  induction l with
  | nil => intro b; rfl
  | cons c rest ih =>
    intro b
    by_cases h : isLowerAlnum c = true
    · have hd : (c == '-') = false := isLowerAlnum_ne_dash c h
      simp [collapseAux, squeezeAux, dashify, h, hd, ih]
    · simp only [List.map_cons, dashify, h, if_false]
      by_cases hb : b
      · subst hb; simp [collapseAux, squeezeAux, h, ih]
      · simp only [Bool.not_eq_true] at hb
        subst hb
        simp [collapseAux, squeezeAux, h, ih]

/-- Claim C7: `generateFilenameFromPrompt` is a pure function equal to the
spec's description of `deriveFilename` (lowercase, replace each maximal
non-alphanumeric run by one `'-'`, strip outer dashes, truncate to 50,
fall back to `'prompt'`), and it maps `'Hello, World!!!'` to
`'hello-world'` and `'   '` to `'prompt'`. -/
theorem derive_filename_spec :
    (∀ p : JStr, generateFilenameFromPrompt p = specDeriveFilename p)
    ∧ generateFilenameFromPrompt "Hello, World!!!".toList = "hello-world".toList
    ∧ generateFilenameFromPrompt "   ".toList = "prompt".toList := by
  refine ⟨?_, by decide, by decide⟩
  intro p
  simp only [generateFilenameFromPrompt, specDeriveFilename, sanitizedBase, collapseRuns,
    collapseAux_eq_squeezeAux]
  by_cases h : 50 < (trimDashes (squeezeAux false ((p.map Char.toLower).map dashify))).length
  · rw [if_pos h]
  · rw [if_neg h, List.take_of_length_le (by omega)]

set_option maxRecDepth 20000 in
/-- Claim C8 counterexample: a 200-character prompt of spaces derives the
6-character fallback `'prompt'`, not a 50-character name; and a
200-character prompt of 49 `'a'`s, a space and 150 `'b'`s derives a name
ending in `'-'`. -/
theorem truncation_cex :
    ((List.replicate 200 ' ').length = 200
      ∧ (generateFilenameFromPrompt (List.replicate 200 ' ')).length ≠ 50)
    ∧ ((List.replicate 49 'a' ++ ' ' :: List.replicate 150 'b').length = 200
      ∧ (generateFilenameFromPrompt
            (List.replicate 49 'a' ++ ' ' :: List.replicate 150 'b')).getLast?
          = some '-') := by
  exact ⟨⟨by decide, by decide⟩, ⟨by decide, by decide⟩⟩

/-- Claim C8 as amended: for every 200-character prompt the derived
filename has at most 50 characters, and exactly 50 when the sanitized
base reaches 50 characters; it can be shorter (down to the fallback
`'prompt'`) and can end in `'-'` when truncation cuts right after a
dash. -/
theorem truncation_bound (p : JStr) (_h : p.length = 200) :
    (generateFilenameFromPrompt p).length ≤ 50
    ∧ (50 ≤ (sanitizedBase p).length → (generateFilenameFromPrompt p).length = 50) := by
  constructor
  · simp only [generateFilenameFromPrompt]
    by_cases hlen : 50 < (sanitizedBase p).length
    · rw [if_pos hlen]
      split
      · decide
      · rw [List.length_take]; omega
    · rw [if_neg hlen]
      split
      · decide
      · omega
  · intro h50
    simp only [generateFilenameFromPrompt]
    by_cases hlen : 50 < (sanitizedBase p).length
    · rw [if_pos hlen, if_neg]
      · rw [List.length_take]; omega
      · intro hnil
        have h0 := congrArg List.length hnil
        rw [List.length_take] at h0
        simp only [List.length_nil] at h0
        omega
    · have heq : (sanitizedBase p).length = 50 := le_antisymm (not_lt.mp hlen) h50
      rw [if_neg hlen, if_neg]
      · exact heq
      · intro hnil
        rw [hnil] at heq
        simp at heq

set_option maxRecDepth 20000 in
/-- Claim C8 witness: a 200-character prompt of `'a'`s keeps the bound. -/
theorem truncation_bound_witness :
    (List.replicate 200 'a').length = 200
    ∧ (generateFilenameFromPrompt (List.replicate 200 'a')).length ≤ 50 :=
  ⟨by decide, (truncation_bound (List.replicate 200 'a') (by decide)).1⟩

/-- The prompt section heading the assembled document
(src/wpr.js line 280). -/
def promptHeader (userPrompt : JStr) : JStr :=
  "# Prompt\n\n".toList ++ userPrompt ++ "\n\n---\n\n# Files:\n\n".toList

/-- One per-file section of the assembled document
(src/wpr.js line 284). -/
def fileSection (f content : JStr) : JStr :=
  "## ".toList ++ f ++ "\n\n```\n".toList ++ content ++ "\n```\n\n".toList

/-- Embeds the document-assembly loop (src/wpr.js lines 281-285): read
each selected file in order, appending its section to the accumulated
content; a failing read (`fileContent` returns `none`, the model of a
rejected `readFile`) aborts with the offending full path. -/
def buildContent (fileContent : JStr → Option JStr) (root : JStr) :
    List JStr → JStr → Except JStr JStr
  | [], acc => .ok acc
  | f :: rest, acc =>
    match fileContent (joinPath root f) with
    | none => .error (joinPath root f)
    | some data => buildContent fileContent root rest (acc ++ fileSection f data)

/-- Embeds the end of `main` (src/wpr.js lines 276-290): assemble the
content and, only if every read succeeded, write `wpr/<derived name>.md`;
the result is the written file's path and content, or `none` when the
run aborted and nothing was written. -/
def runAssembly (fileContent : JStr → Option JStr) (root userPrompt : JStr)
    (selected : List JStr) : Option (JStr × JStr) :=
  match buildContent fileContent root selected (promptHeader userPrompt) with
  | .error _ => none
  | .ok content =>
    some (joinPath (joinPath root "wpr".toList)
      (generateFilenameFromPrompt userPrompt ++ ".md".toList), content)

/-- If some selected file fails to read, the assembly loop aborts with the
path of the first failing file, whatever content was accumulated. -/
theorem buildContent_error (fileContent : JStr → Option JStr) (root : JStr) :
    ∀ (sel : List JStr) (acc : JStr),
      (∃ f ∈ sel, fileContent (joinPath root f) = none) →
      ∃ fbad ∈ sel, fileContent (joinPath root fbad) = none
        ∧ buildContent fileContent root sel acc = .error (joinPath root fbad) := by
  intro sel
  induction sel with
  | nil =>
    rintro acc ⟨f, hf, -⟩
    exact absurd hf (List.not_mem_nil f)
  | cons f rest ih =>
    intro acc h
    cases hf : fileContent (joinPath root f) with
    | none =>
      exact ⟨f, List.mem_cons_self f rest, hf, by simp [buildContent, hf]⟩
    | some data =>
      have h2 : ∃ g ∈ rest, fileContent (joinPath root g) = none := by
        obtain ⟨g, hg, hgn⟩ := h
        rcases List.mem_cons.mp hg with rfl | hg2
        · exact absurd hgn (by simp [hf])
        · exact ⟨g, hg2, hgn⟩
      obtain ⟨g, hg, hgn, heq⟩ := ih (acc ++ fileSection f data) h2
      exact ⟨g, List.mem_cons_of_mem f hg, hgn, by simp [buildContent, hf, heq]⟩

/-- Claim C9: if reading any selected file fails at assembly time, the
run fails with an error naming a failing file's full path and no output
document is produced — assembly is all-or-nothing. -/
theorem assembly_all_or_nothing (fileContent : JStr → Option JStr)
    (root userPrompt : JStr) (selected : List JStr)
    (h : ∃ f ∈ selected, fileContent (joinPath root f) = none) :
    (∃ fbad ∈ selected, fileContent (joinPath root fbad) = none
      ∧ buildContent fileContent root selected (promptHeader userPrompt)
          = .error (joinPath root fbad))
    ∧ runAssembly fileContent root userPrompt selected = none := by
  obtain ⟨fbad, hmem, hnone, heq⟩ :=
    buildContent_error fileContent root selected (promptHeader userPrompt) h
  refine ⟨⟨fbad, hmem, hnone, heq⟩, ?_⟩
  unfold runAssembly
  rw [heq]

/-- Claim C9 witness: with a read collaborator that fails on every path,
selecting `a.txt` aborts the assembly and writes nothing. -/
theorem assembly_all_or_nothing_witness :
    (∃ fbad ∈ ["a.txt".toList],
        (fun (_ : JStr) => (none : Option JStr)) (joinPath "/proj".toList fbad) = none
      ∧ buildContent (fun _ => none) "/proj".toList ["a.txt".toList]
            (promptHeader "Test".toList)
          = .error (joinPath "/proj".toList fbad))
    ∧ runAssembly (fun _ => none) "/proj".toList "Test".toList ["a.txt".toList] = none :=
  assembly_all_or_nothing (fun _ => none) "/proj".toList "Test".toList ["a.txt".toList]
    ⟨"a.txt".toList, by decide, rfl⟩

end Wpr
